import Mathlib

/-!
Shallow embedding of the core logic of the Perek119Web application
(`app.py`): verse cleaning, stanza partitioning, name-to-stanza
resolution, the two document builders' error checks, the loader's
count validation, and the batch loop.  Strings are modelled as lists
of characters; Python exceptions are modelled with `Option`/`Except`.
-/

set_option autoImplicit false

namespace Perek119

/-- A verse is modelled as its list of characters. -/
abbrev Verse := List Char

/-- A stanza is a list of verses (a slice `verses[i:i+8]` in the source). -/
abbrev Stanza := List Verse

/-- Whitespace characters removed by Python `str.strip()` (the ASCII
whitespace set; the corpus and the claims use only these). -/
def isPySpace (c : Char) : Bool :=
  c == ' ' || c == '\t' || c == '\n' || c == '\r' ||
    c == Char.ofNat 11 || c == Char.ofNat 12

/-- Python `str.strip()`: drop whitespace from both ends.  Trailing
whitespace is removed via a reversal, then leading whitespace is dropped. -/
def stripList (l : List Char) : List Char :=
  List.dropWhile isPySpace ((List.dropWhile isPySpace l.reverse).reverse)

/-- Model of `html.unescape`, restricted to a representative table of
semicolon-terminated character references; like the original it is a
single left-to-right pass, so decoded text is not rescanned. -/
def unescape : List Char → List Char
  | '&' :: 'q' :: 'u' :: 'o' :: 't' :: ';' :: r => '"' :: unescape r
  | '&' :: 'a' :: 'm' :: 'p' :: ';' :: r => '&' :: unescape r
  | '&' :: 'l' :: 't' :: ';' :: r => '<' :: unescape r
  | '&' :: 'g' :: 't' :: ';' :: r => '>' :: unescape r
  | '&' :: '#' :: '3' :: '9' :: ';' :: r => Char.ofNat 39 :: unescape r
  | c :: rest => c :: unescape rest
  | [] => []

/-- Scan to the first closing angle bracket, returning the remainder
after it. -/
def afterClose : List Char → Option (List Char)
  | [] => none
  | c :: rest => if c = '>' then some rest else afterClose rest

/-- Match the tail of the regex `<[^>]+>` (everything after the opening
bracket) against the start of the list: at least one non-closing
character, then the first closing bracket; returns the remainder. -/
def findTag : List Char → Option (List Char)
  | [] => none
  | c :: rest => if c = '>' then none else afterClose rest

/-- Fuelled single left-to-right pass of `TAG_RE.sub("", text)`:
at an opening bracket with a complete tag ahead, drop the tag;
otherwise keep the character. -/
def removeTagsF : Nat → List Char → List Char
  | 0, l => l
  | _ + 1, [] => []
  | fuel + 1, c :: rest =>
    if c = '<' then
      match findTag rest with
      | some rest2 => removeTagsF fuel rest2
      | none => c :: removeTagsF fuel rest
    else c :: removeTagsF fuel rest

/-- Remove every substring matching `TAG_RE` (the pattern `<[^>]+>`),
as `re.sub` with an empty replacement does.  The fuel `l.length` always
suffices because each step consumes at least one character. -/
def removeTags (l : List Char) : List Char := removeTagsF l.length l

/-- One pass of Python `str.replace(pat, "")` for a three-character
pattern: removes non-overlapping occurrences left to right, without
rescanning text exposed by a removal. -/
def removeSub3 (a b c : Char) : List Char → List Char
  | x :: y :: z :: rest =>
    if x = a ∧ y = b ∧ z = c then removeSub3 a b c rest
    else x :: removeSub3 a b c (y :: z :: rest)
  | l => l

/-- clean_hebrew_verse from the source: decode HTML entities, strip
HTML tags, remove the parsha markers (first the pe marker, then the
samekh marker), and trim whitespace — in that order. -/
def clean_hebrew_verse (raw : List Char) : List Char :=
  stripList (removeSub3 '{' 'ס' '}' (removeSub3 '{' 'פ' '}' (removeTags (unescape raw))))

/-- Decidable substring test: does `pat` occur contiguously in the list? -/
def containsSub (pat : List Char) : List Char → Bool
  | [] => pat.isEmpty
  | c :: rest => pat.isPrefixOf (c :: rest) || containsSub pat rest

/-- Does the list begin with a match of the tag pattern `<[^>]+>`? -/
def startsTag : List Char → Bool
  | [] => false
  | c :: rest => c == '<' && (findTag rest).isSome

/-- Does the list contain a substring matching the tag pattern? -/
def hasTagB : List Char → Bool
  | [] => false
  | c :: rest => startsTag (c :: rest) || hasTagB rest

/-- Every opening brace begins a complete parsha marker (pe or samekh).
Under this condition the two single-pass marker removals cannot splice
marker fragments into a new marker. -/
def bracesOk : List Char → Bool
  | [] => true
  | c :: rest =>
    if c = '{' then
      match rest with
      | x :: y :: rest2 => (x == 'פ' || x == 'ס') && y == '}' && bracesOk rest2
      | _ => false
    else bracesOk rest

/-- The 22-letter Hebrew alphabet in canonical order, as in the source. -/
def ALEPH_BET : List Char :=
  ['א', 'ב', 'ג', 'ד', 'ה', 'ו', 'ז', 'ח', 'ט', 'י',
   'כ', 'ל', 'מ', 'נ', 'ס', 'ע', 'פ', 'צ', 'ק', 'ר',
   'ש', 'ת']

/-- Index of the first occurrence of a character in a list.  This models
the dict built by enumerating ALEPH_BET (whose letters are distinct, so
first-occurrence and dict semantics agree). -/
def lookupIdx (c : Char) : List Char → Option Nat
  | [] => none
  | a :: rest => if a = c then some 0 else (lookupIdx c rest).map (· + 1)

/-- letter_to_index from the source: dict lookup with `.get` (None on a miss). -/
def letter_to_index (c : Char) : Option Nat := lookupIdx c ALEPH_BET

/-- The final_to_regular dict lookup with default, from get_stanzas_for_name:
map each of the five final letter forms to its base form, identity otherwise. -/
def final_to_regular (c : Char) : Char :=
  if c = 'ך' then 'כ'
  else if c = 'ם' then 'מ'
  else if c = 'ן' then 'נ'
  else if c = 'ף' then 'פ'
  else if c = 'ץ' then 'צ'
  else c

/-- build_stanzas from the source: the slices `verses_119[i:i+8]` for
`i in range(0, 176, 8)`, i.e. `i = 8*k` for `k = 0, …, 21`.  Python
slicing clamps at the list's end, which `drop`/`take` also do. -/
def build_stanzas (verses_119 : List Verse) : List Stanza :=
  (List.range 22).map fun k => (verses_119.drop (8 * k)).take 8

/-- The character loop of get_stanzas_for_name over the trimmed name:
skip spaces, normalize final forms, look the letter up in the alphabet,
and on a hit append the pair (letter, stanzas[idx]).  Python indexing
`stanzas[idx]` raises when out of range; that is modelled by `none`. -/
def resolveChars (stanzas : List Stanza) : List Char → Option (List (Char × Stanza))
  | [] => some []
  | ch :: rest =>
    if ch = ' ' then resolveChars stanzas rest
    else
      match letter_to_index (final_to_regular ch) with
      | none => resolveChars stanzas rest
      | some idx =>
        match stanzas[idx]? with
        | none => none
        | some st =>
          (resolveChars stanzas rest).map fun tail => (final_to_regular ch, st) :: tail

/-- get_stanzas_for_name from the source: trim the name, then run the
character loop. -/
def get_stanzas_for_name (name : List Char) (stanzas : List Stanza) :
    Option (List (Char × Stanza)) :=
  resolveChars stanzas (stripList name)

/-- The two ways a document builder can raise: the explicit "no valid
Hebrew letters" ValueError, or an IndexError propagated from the resolver. -/
inductive BuildErr
  | noLetters
  | indexErr
deriving DecidableEq

/-- Error check of build_docx_bytes_for_name: resolve the sections and
raise when none were found.  Rendering is delegated to the external
docx library; the built document's content is modelled by the section
list it renders. -/
def build_docx_bytes_for_name (name : List Char) (stanzas : List Stanza) :
    Except BuildErr (List (Char × Stanza)) :=
  match get_stanzas_for_name name stanzas with
  | none => Except.error BuildErr.indexErr
  | some [] => Except.error BuildErr.noLetters
  | some sections => Except.ok sections

/-- Error check of build_pdf_bytes_for_name: identical guard; rendering is
delegated to the external fpdf library and modelled by the section list. -/
def build_pdf_bytes_for_name (name : List Char) (stanzas : List Stanza) :
    Except BuildErr (List (Char × Stanza)) :=
  match get_stanzas_for_name name stanzas with
  | none => Except.error BuildErr.indexErr
  | some [] => Except.error BuildErr.noLetters
  | some sections => Except.ok sections

/-- The loader's failure mode kept by this model: a cleaned verse count
different from 176. -/
inductive LoadErr
  | wrongCount
deriving DecidableEq

/-- Validation core of load_tehillim_119: clean every fetched verse and
fail unless exactly 176 remain.  The network transport is an external
collaborator, so the fetched raw verse list is a parameter. -/
def load_tehillim_119 (payload : List (List Char)) : Except LoadErr (List (List Char)) :=
  let cleaned := payload.map clean_hebrew_verse
  if cleaned.length = 176 then Except.ok cleaned else Except.error LoadErr.wrongCount

/-- The name list built by the batch tab: drop missing cells, convert to
string and strip, then drop empties (`if n` keeps non-empty strings). -/
def batch_names (col : List (Option (List Char))) : List (List Char) :=
  ((col.filterMap id).map stripList).filter fun n => !n.isEmpty

/-- safe_name of the batch loop: spaces become underscores, with the
literal fallback "name" for an empty result. -/
def safe_name (n : List Char) : List Char :=
  let s := n.map fun c => if c = ' ' then '_' else c
  if s.isEmpty then ['n', 'a', 'm', 'e'] else s

/-- The DOCX file name written into the archive for one name. -/
def docx_file_name (n : List Char) : List Char :=
  safe_name n ++ "_Tehillim119.docx".toList

/-- The batch loop in the DOCX branch: for each kept name try the
builder; on success write (file name, document) into the archive, on any
exception skip the name and continue. -/
def batch_outputs (col : List (Option (List Char))) (stanzas : List Stanza) :
    List (List Char × List (Char × Stanza)) :=
  (batch_names col).filterMap fun n =>
    match build_docx_bytes_for_name n stanzas with
    | Except.ok sections => some (docx_file_name n, sections)
    | Except.error _ => none

/-- The aggregate count shown by the success message after the batch
loop: `len(names)`, the number of names attempted. -/
def reported_count (col : List (Option (List Char))) : Nat :=
  (batch_names col).length

/-! ### Lemmas about the stanza partitioner -/

theorem build_stanzas_getElem (vs : List Verse) (i : Nat) (hi : i < 22) :
    (build_stanzas vs)[i]? = some ((vs.drop (8 * i)).take 8) := by
  simp [build_stanzas, List.getElem?_range, hi]

/-- C2: the Stanza Partitioner on a 176-verse input yields 22 stanzas of
8 verses each, with verse j of stanza i equal to input verse 8*i+j. -/
theorem build_stanzas_partition :
    ∀ vs : List Verse, vs.length = 176 →
      (build_stanzas vs).length = 22 ∧
      ∀ i, i < 22 →
        ∃ st, (build_stanzas vs)[i]? = some st ∧ st.length = 8 ∧
          ∀ j, j < 8 → st[j]? = vs[8 * i + j]? := by
  intro vs hlen
  refine ⟨by simp [build_stanzas], ?_⟩
  intro i hi
  refine ⟨(vs.drop (8 * i)).take 8, build_stanzas_getElem vs i hi, ?_, ?_⟩
  · simp [List.length_take, List.length_drop, hlen]
    omega
  · intro j hj
    rw [List.getElem?_take, if_pos hj, List.getElem?_drop]

/-- Witness for C2 at a concrete 176-verse input. -/
theorem build_stanzas_partition_witness :
    (List.replicate 176 (['א'] : Verse)).length = 176 ∧
      ((build_stanzas (List.replicate 176 (['א'] : Verse))).length = 22 ∧
        ∀ i, i < 22 →
          ∃ st, (build_stanzas (List.replicate 176 (['א'] : Verse)))[i]? = some st ∧
            st.length = 8 ∧
            ∀ j, j < 8 → st[j]? = (List.replicate 176 (['א'] : Verse))[8 * i + j]?) :=
  ⟨by rw [List.length_replicate], build_stanzas_partition _ (by rw [List.length_replicate])⟩

/-- C9: build_stanzas is total: it returns exactly 22 slices for every
input length, slices are hardcoded to positions 8*i .. 8*i+7 (so short
inputs yield truncated or empty trailing stanzas), and input elements
beyond position 175 never influence the result. -/
theorem build_stanzas_total :
    ∀ vs : List Verse,
      (build_stanzas vs).length = 22 ∧
      (∀ i, i < 22 → (build_stanzas vs)[i]? = some ((vs.drop (8 * i)).take 8)) ∧
      build_stanzas vs = build_stanzas (vs.take 176) := by
  intro vs
  refine ⟨by simp [build_stanzas], fun i hi => build_stanzas_getElem vs i hi, ?_⟩
  unfold build_stanzas
  refine List.map_congr_left ?_
  intro k hk
  rw [List.mem_range] at hk
  rw [List.drop_take, List.take_take]
  congr 1
  omega

/-- Witness for C9 at a concrete short (3-verse) input. -/
theorem build_stanzas_total_witness :
    (build_stanzas (List.replicate 3 (['ב'] : Verse))).length = 22 ∧
      (build_stanzas (List.replicate 3 (['ב'] : Verse)))[1]? =
        some (((List.replicate 3 (['ב'] : Verse)).drop (8 * 1)).take 8) ∧
      build_stanzas (List.replicate 3 (['ב'] : Verse)) =
        build_stanzas ((List.replicate 3 (['ב'] : Verse)).take 176) :=
  ⟨(build_stanzas_total _).1, (build_stanzas_total _).2.1 1 (by decide),
    (build_stanzas_total _).2.2⟩

/-! ### Lemmas about the tag scanner -/

theorem afterClose_none : ∀ l : List Char, afterClose l = none ↔ '>' ∉ l := by
  intro l
  induction l with
  | nil => simp [afterClose]
  | cons c rest ih =>
    by_cases h : c = '>'
    · subst h
      simp [afterClose]
    · have h' : ¬ '>' = c := fun hh => h hh.symm
      rw [afterClose, if_neg h, ih]
      simp [List.mem_cons, h']

theorem afterClose_decomp :
    ∀ l r : List Char, afterClose l = some r → ∃ w, l = w ++ '>' :: r ∧ '>' ∉ w := by
  intro l
  induction l with
  | nil => intro r h; simp [afterClose] at h
  | cons c rest ih =>
    intro r h
    by_cases hc : c = '>'
    · subst hc
      rw [afterClose, if_pos rfl] at h
      obtain rfl := Option.some.inj h
      exact ⟨[], rfl, by simp⟩
    · rw [afterClose, if_neg hc] at h
      obtain ⟨w, hw, hmem⟩ := ih r h
      have hc' : ¬ '>' = c := fun hh => hc hh.symm
      exact ⟨c :: w, by rw [hw]; rfl, by simp [List.mem_cons, hmem, hc']⟩

theorem afterClose_of_decomp :
    ∀ (w t : List Char), '>' ∉ w → afterClose (w ++ '>' :: t) = some t := by
  intro w
  induction w with
  | nil => intro t _; simp [afterClose]
  | cons c w' ih =>
    intro t hm
    have hc : ¬c = '>' := fun h => hm (by simp [h])
    have hm' : '>' ∉ w' := fun h => hm (by simp [h])
    rw [List.cons_append, afterClose, if_neg hc]
    exact ih t hm'

theorem findTag_decomp :
    ∀ l r : List Char, findTag l = some r →
      ∃ d w, l = d :: w ++ '>' :: r ∧ ¬d = '>' ∧ '>' ∉ w := by
  intro l r h
  cases l with
  | nil => simp [findTag] at h
  | cons c rest =>
    by_cases hc : c = '>'
    · rw [findTag, if_pos hc] at h
      exact absurd h (by simp)
    · rw [findTag, if_neg hc] at h
      obtain ⟨w, hw, hmem⟩ := afterClose_decomp rest r h
      exact ⟨c, w, by rw [hw]; rfl, hc, hmem⟩

theorem findTag_length {l r : List Char} (h : findTag l = some r) : r.length < l.length := by
  obtain ⟨d, w, hw, -, -⟩ := findTag_decomp l r h
  subst hw
  simp [List.length_append]
  omega

theorem findTag_sublist {l r : List Char} (h : findTag l = some r) : List.Sublist r l := by
  obtain ⟨d, w, hw, -, -⟩ := findTag_decomp l r h
  subst hw
  simpa using List.sublist_append_right (d :: w ++ ['>']) r

theorem findTag_append {l r s : List Char} (h : findTag l = some r) :
    findTag (l ++ s) = some (r ++ s) := by
  obtain ⟨d, w, hw, hd, hmem⟩ := findTag_decomp l r h
  subst hw
  have : (d :: w ++ '>' :: r) ++ s = d :: (w ++ '>' :: (r ++ s)) := by simp
  rw [this, findTag, if_neg hd]
  exact afterClose_of_decomp w (r ++ s) hmem

theorem findTag_none_no_gt : ∀ l : List Char, '>' ∉ l → findTag l = none := by
  intro l h
  cases l with
  | nil => rfl
  | cons c rest =>
    have hc : ¬c = '>' := fun hh => h (by simp [hh])
    have hm : '>' ∉ rest := fun hh => h (by simp [hh])
    rw [findTag, if_neg hc]
    exact (afterClose_none rest).mpr hm

theorem removeTagsF_nil : ∀ fuel, removeTagsF fuel [] = [] := by
  intro fuel
  cases fuel <;> rfl

theorem removeTagsF_gt (n : Nat) (rest : List Char) :
    ∃ t, removeTagsF n ('>' :: rest) = '>' :: t := by
  cases n with
  | zero => exact ⟨rest, rfl⟩
  | succ m =>
    refine ⟨removeTagsF m rest, ?_⟩
    rw [removeTagsF, if_neg (by decide)]

theorem removeTagsF_sublist : ∀ (fuel : Nat) (l : List Char),
    List.Sublist (removeTagsF fuel l) l := by
  intro fuel
  induction fuel with
  | zero => intro l; exact List.Sublist.refl l
  | succ n ih =>
    intro l
    cases l with
    | nil => exact List.Sublist.refl []
    | cons c rest =>
      by_cases hc : c = '<'
      · cases hft : findTag rest with
        | some r2 =>
          rw [removeTagsF, if_pos hc, hft]
          exact ((ih r2).trans (findTag_sublist hft)).trans (List.sublist_cons_self c rest)
        | none =>
          rw [removeTagsF, if_pos hc, hft]
          exact List.Sublist.cons₂ c (ih rest)
      · rw [removeTagsF, if_neg hc]
        exact List.Sublist.cons₂ c (ih rest)

theorem removeTags_sublist (l : List Char) : List.Sublist (removeTags l) l :=
  removeTagsF_sublist l.length l

theorem startsTag_cons_ne {c : Char} (t : List Char) (h : ¬c = '<') :
    startsTag (c :: t) = false := by
  simp [startsTag, h]

theorem hasTagB_cons_false {c : Char} {l : List Char} :
    hasTagB (c :: l) = false ↔ startsTag (c :: l) = false ∧ hasTagB l = false := by
  rw [hasTagB]
  simp

/-- The single pass of tag removal leaves no substring matching the tag
pattern, for any input, given enough fuel. -/
theorem removeTagsF_no_tag : ∀ (fuel : Nat) (l : List Char), l.length ≤ fuel →
    hasTagB (removeTagsF fuel l) = false := by
  intro fuel
  induction fuel with
  | zero =>
    intro l h
    obtain rfl := List.eq_nil_of_length_eq_zero (Nat.le_zero.mp h)
    rfl
  | succ n ih =>
    intro l hlen
    cases l with
    | nil => rfl
    | cons c rest =>
      have hrest : rest.length ≤ n := by
        simp [List.length_cons] at hlen
        omega
      by_cases hc : c = '<'
      · cases hft : findTag rest with
        | some r2 =>
          rw [removeTagsF, if_pos hc, hft]
          exact ih r2 (le_of_lt (lt_of_lt_of_le (findTag_length hft) hrest))
        | none =>
          rw [removeTagsF, if_pos hc, hft]
          subst hc
          rw [hasTagB_cons_false]
          refine ⟨?_, ih rest hrest⟩
          have hnone : findTag (removeTagsF n rest) = none := by
            cases rest with
            | nil => rw [removeTagsF_nil]; rfl
            | cons d rest2 =>
              by_cases hd : d = '>'
              · subst hd
                obtain ⟨t, ht⟩ := removeTagsF_gt n rest2
                rw [ht, findTag, if_pos rfl]
              · have hac : afterClose rest2 = none := by
                  have := hft
                  rw [findTag, if_neg hd] at this
                  exact this
                have hgt2 : '>' ∉ rest2 := (afterClose_none rest2).mp hac
                have hd' : ¬ '>' = d := fun hh => hd hh.symm
                have hgt : '>' ∉ d :: rest2 := by
                  simp [List.mem_cons, hgt2, hd']
                have hgt' : '>' ∉ removeTagsF n (d :: rest2) :=
                  fun hm => hgt (List.Sublist.mem hm (removeTagsF_sublist n (d :: rest2)))
                exact findTag_none_no_gt _ hgt'
          simp [startsTag, hnone]
      · rw [removeTagsF, if_neg hc, hasTagB_cons_false]
        exact ⟨startsTag_cons_ne _ hc, ih rest hrest⟩

theorem removeTags_no_tag (l : List Char) : hasTagB (removeTags l) = false :=
  removeTagsF_no_tag l.length l (Nat.le_refl _)

/-! ### Tag-freedom is preserved by the later cleaning stages -/

theorem startsTag_append {x : List Char} (s : List Char) (h : startsTag x = true) :
    startsTag (x ++ s) = true := by
  cases x with
  | nil => simp [startsTag] at h
  | cons c rest =>
    simp only [startsTag, Bool.and_eq_true, beq_iff_eq] at h
    obtain ⟨hc, hsome⟩ := h
    obtain ⟨r, hr⟩ := Option.isSome_iff_exists.mp hsome
    subst hc
    rw [List.cons_append, startsTag, findTag_append hr]
    rfl

theorem hasTagB_append {m : List Char} (s : List Char) (h : hasTagB m = true) :
    hasTagB (m ++ s) = true := by
  induction m with
  | nil => simp [hasTagB] at h
  | cons c m2 ih =>
    rw [hasTagB, Bool.or_eq_true] at h
    rw [List.cons_append, hasTagB, Bool.or_eq_true]
    rcases h with h | h
    · exact Or.inl (by rw [← List.cons_append]; exact startsTag_append s h)
    · exact Or.inr (ih h)

theorem hasTagB_append_false {p m : List Char} (hf : hasTagB (p ++ m) = false) :
    hasTagB m = false := by
  induction p with
  | nil => exact hf
  | cons c p2 ih => exact ih (hasTagB_cons_false.mp hf).2

theorem hasTagB_suffix {m1 m2 : List Char} (h : m2 <:+ m1) (hf : hasTagB m1 = false) :
    hasTagB m2 = false := by
  obtain ⟨pre, hpre⟩ := h
  exact hasTagB_append_false (hpre ▸ hf)

theorem hasTagB_prefix {m : List Char} {s : List Char} (hf : hasTagB (m ++ s) = false) :
    hasTagB m = false := by
  cases hm : hasTagB m with
  | false => rfl
  | true =>
    have h2 := hasTagB_append s hm
    rw [hf] at h2
    exact Bool.noConfusion h2

theorem removeSub3_cons3_eq (a b c x y z : Char) (r : List Char) :
    removeSub3 a b c (x :: y :: z :: r) =
      if x = a ∧ y = b ∧ z = c then removeSub3 a b c r
      else x :: removeSub3 a b c (y :: z :: r) := by
  simp [removeSub3]

theorem removeSub3_cons_ne {a x : Char} (b c : Char) (l : List Char) (hx : ¬x = a) :
    removeSub3 a b c (x :: l) = x :: removeSub3 a b c l := by
  cases l with
  | nil => simp [removeSub3]
  | cons y l2 =>
    cases l2 with
    | nil => simp [removeSub3]
    | cons z r =>
      rw [removeSub3_cons3_eq, if_neg (fun h => hx h.1)]

theorem removeSub3_cons_match (a b c : Char) (r : List Char) :
    removeSub3 a b c (a :: b :: c :: r) = removeSub3 a b c r := by
  rw [removeSub3_cons3_eq, if_pos ⟨rfl, rfl, rfl⟩]

theorem removeSub3_sublist (a b c : Char) : ∀ (n : Nat) (l : List Char), l.length ≤ n →
    List.Sublist (removeSub3 a b c l) l := by
  intro n
  induction n with
  | zero =>
    intro l h
    obtain rfl := List.eq_nil_of_length_eq_zero (Nat.le_zero.mp h)
    simp [removeSub3]
  | succ n ih =>
    intro l hlen
    cases l with
    | nil => simp [removeSub3]
    | cons x l2 =>
      cases l2 with
      | nil => simp [removeSub3]
      | cons y l3 =>
        cases l3 with
        | nil => simp [removeSub3]
        | cons z rest =>
          have hl : rest.length + 3 ≤ n + 1 := by simpa using hlen
          rw [removeSub3_cons3_eq]
          by_cases hm : x = a ∧ y = b ∧ z = c
          · rw [if_pos hm]
            refine (ih rest (by omega)).trans ?_
            refine List.Sublist.trans ?_ (List.sublist_cons_self x _)
            refine List.Sublist.trans ?_ (List.sublist_cons_self y _)
            exact List.sublist_cons_self z rest
          · rw [if_neg hm]
            exact List.Sublist.cons₂ x (ih (y :: z :: rest) (by simp; omega))

theorem removeSub3_sub (a b c : Char) (l : List Char) :
    List.Sublist (removeSub3 a b c l) l :=
  removeSub3_sublist a b c l.length l (Nat.le_refl _)

/-- Removing occurrences of a three-character pattern that contains no
closing angle bracket head cannot create a tag match where none existed. -/
theorem removeSub3_tagFree (a b c : Char) (ha : ¬a = '>') :
    ∀ (n : Nat) (l : List Char), l.length ≤ n → hasTagB l = false →
      hasTagB (removeSub3 a b c l) = false := by
  intro n
  induction n with
  | zero =>
    intro l h _
    obtain rfl := List.eq_nil_of_length_eq_zero (Nat.le_zero.mp h)
    rfl
  | succ n ih =>
    intro l hlen hf
    cases l with
    | nil => exact hf
    | cons x l2 =>
      cases l2 with
      | nil => exact hf
      | cons y l3 =>
        cases l3 with
        | nil => exact hf
        | cons z rest =>
          have hl : rest.length + 3 ≤ n + 1 := by simpa using hlen
          obtain ⟨hst, hf2⟩ := hasTagB_cons_false.mp hf
          rw [removeSub3_cons3_eq]
          by_cases hm : x = a ∧ y = b ∧ z = c
          · rw [if_pos hm]
            have hf4 : hasTagB rest = false :=
              (hasTagB_cons_false.mp (hasTagB_cons_false.mp hf2).2).2
            exact ih rest (by omega) hf4
          · rw [if_neg hm]
            have hm2 : hasTagB (removeSub3 a b c (y :: z :: rest)) = false :=
              ih (y :: z :: rest) (by simp; omega) hf2
            rw [hasTagB_cons_false]
            refine ⟨?_, hm2⟩
            by_cases hx : x = '<'
            · subst hx
              have hnone : findTag (y :: z :: rest) = none := by
                simp only [startsTag, Bool.and_eq_true] at hst
                rcases Bool.and_eq_false_iff.mp hst with h | h
                · exact absurd h (by decide)
                · exact Option.not_isSome_iff_eq_none.mp (by rw [h]; exact Bool.noConfusion)
              by_cases hy : y = '>'
              · subst hy
                have hya : ¬('>' : Char) = a := fun hh => ha hh.symm
                rw [removeSub3_cons_ne b c (z :: rest) hya]
                rw [startsTag]
                simp [findTag]
              · have hac : afterClose (z :: rest) = none := by
                  have := hnone
                  rw [findTag, if_neg hy] at this
                  exact this
                have hgt2 : '>' ∉ z :: rest := (afterClose_none _).mp hac
                have hgt : '>' ∉ y :: z :: rest := by
                  intro hmem
                  rcases List.mem_cons.mp hmem with h | h
                  · exact hy h.symm
                  · exact hgt2 h
                have hgt3 : '>' ∉ removeSub3 a b c (y :: z :: rest) :=
                  fun hmem => hgt (List.Sublist.mem hmem (removeSub3_sub a b c _))
                simp [startsTag, findTag_none_no_gt _ hgt3]
            · exact startsTag_cons_ne _ hx

/-! ### Lemmas about trimming -/

theorem reversed_dropWhile_prefix (l : List Char) :
    ∃ s, l = (List.dropWhile isPySpace l.reverse).reverse ++ s := by
  refine ⟨(List.takeWhile isPySpace l.reverse).reverse, ?_⟩
  rw [← List.reverse_append, List.takeWhile_append_dropWhile, List.reverse_reverse]

theorem stripList_sublist (l : List Char) : List.Sublist (stripList l) l := by
  have h1 : List.Sublist (List.dropWhile isPySpace l.reverse) l.reverse :=
    List.dropWhile_sublist _
  have h2 : List.Sublist ((List.dropWhile isPySpace l.reverse).reverse) l := by
    simpa using List.reverse_sublist.mpr h1
  exact (List.dropWhile_sublist _).trans h2

theorem stripList_tagFree {l : List Char} (hf : hasTagB l = false) :
    hasTagB (stripList l) = false := by
  obtain ⟨s, hs⟩ := reversed_dropWhile_prefix l
  have hX : hasTagB ((List.dropWhile isPySpace l.reverse).reverse) = false :=
    hasTagB_prefix (by rw [← hs]; exact hf)
  exact hasTagB_suffix (List.dropWhile_suffix _) hX

theorem dropWhile_head_not (q : Char → Bool) :
    ∀ (l : List Char) (c : Char), (List.dropWhile q l).head? = some c → q c = false := by
  intro l
  induction l with
  | nil => intro c h; simp [List.dropWhile] at h
  | cons a rest ih =>
    intro c h
    cases hq : q a with
    | true =>
      rw [List.dropWhile_cons, if_pos hq] at h
      exact ih c h
    | false =>
      rw [List.dropWhile_cons, if_neg (by simp [hq])] at h
      obtain rfl : a = c := Option.some.inj h
      exact hq

theorem stripList_head {l : List Char} {c : Char} (h : (stripList l).head? = some c) :
    isPySpace c = false :=
  dropWhile_head_not isPySpace _ c h

theorem stripList_getLast {l : List Char} {c : Char} (h : (stripList l).getLast? = some c) :
    isPySpace c = false := by
  have hs : stripList l =
      List.dropWhile isPySpace ((List.dropWhile isPySpace l.reverse).reverse) := rfl
  have hne : List.dropWhile isPySpace ((List.dropWhile isPySpace l.reverse).reverse) ≠ [] := by
    intro he
    rw [hs, he] at h
    exact Option.noConfusion h
  have h1 : ((List.dropWhile isPySpace l.reverse).reverse).getLast? = some c := by
    conv_lhs =>
      rw [← List.takeWhile_append_dropWhile isPySpace
        ((List.dropWhile isPySpace l.reverse).reverse)]
    rw [List.getLast?_append_of_ne_nil _ hne, ← hs, h]
  rw [List.getLast?_reverse] at h1
  exact dropWhile_head_not isPySpace _ c h1

/-! ### Substring occurrence -/

theorem containsSub_head {a : Char} {pat l : List Char}
    (h : containsSub (a :: pat) l = true) : a ∈ l := by
  induction l with
  | nil => simp [containsSub] at h
  | cons c rest ih =>
    rw [containsSub, Bool.or_eq_true] at h
    rcases h with h | h
    · simp only [List.isPrefixOf, Bool.and_eq_true, beq_iff_eq] at h
      exact h.1 ▸ List.mem_cons_self c rest
    · exact List.mem_cons_of_mem c (ih h)

theorem containsSub_false_of_not_mem {a : Char} (pat : List Char) {l : List Char}
    (h : a ∉ l) : containsSub (a :: pat) l = false := by
  cases hc : containsSub (a :: pat) l with
  | false => rfl
  | true => exact absurd (containsSub_head hc) h

/-! ### The brace-discipline condition defeats marker splicing -/

theorem bracesOk_cons_ne {c : Char} (rest : List Char) (hc : ¬c = '{') :
    bracesOk (c :: rest) = bracesOk rest := by
  rw [bracesOk.eq_def]
  simp only [if_neg hc]

theorem bracesOk_cons_brace (x y : Char) (rest2 : List Char) :
    bracesOk ('{' :: x :: y :: rest2) =
      ((x == 'פ' || x == 'ס') && y == '}' && bracesOk rest2) := by
  rfl

theorem bracesOk_no_brace : ∀ (n : Nat) (l : List Char), l.length ≤ n →
    bracesOk l = true →
    '{' ∉ removeSub3 '{' 'ס' '}' (removeSub3 '{' 'פ' '}' l) := by
  intro n
  induction n with
  | zero =>
    intro l h _
    obtain rfl := List.eq_nil_of_length_eq_zero (Nat.le_zero.mp h)
    simp [removeSub3]
  | succ n ih =>
    intro l hlen hb
    cases l with
    | nil => simp [removeSub3]
    | cons c rest =>
      by_cases hc : c = '{'
      · subst hc
        cases rest with
        | nil => exact Bool.noConfusion hb
        | cons x rest1 =>
          cases rest1 with
          | nil => exact Bool.noConfusion hb
          | cons y rest2 =>
            have hb' : (((x == 'פ' || x == 'ס') && (y == '}')) && bracesOk rest2) = true := by
              rw [← bracesOk_cons_brace]
              exact hb
            rw [Bool.and_eq_true, Bool.and_eq_true, Bool.or_eq_true, beq_iff_eq,
              beq_iff_eq, beq_iff_eq] at hb'
            obtain ⟨⟨hx, hy⟩, hb2⟩ := hb'
            subst hy
            have hlen2 : rest2.length ≤ n := by
              simp [List.length_cons] at hlen
              omega
            rcases hx with hx | hx
            · subst hx
              rw [removeSub3_cons_match]
              exact ih rest2 hlen2 hb2
            · subst hx
              rw [removeSub3_cons3_eq, if_neg (by decide),
                removeSub3_cons_ne 'פ' '}' _ (by decide),
                removeSub3_cons_ne 'פ' '}' _ (by decide),
                removeSub3_cons_match]
              exact ih rest2 hlen2 hb2
      · have hb2 : bracesOk rest = true := by
          rw [← bracesOk_cons_ne rest hc]
          exact hb
        have hlen2 : rest.length ≤ n := by
          simp [List.length_cons] at hlen
          omega
        rw [removeSub3_cons_ne 'פ' '}' _ hc, removeSub3_cons_ne 'ס' '}' _ hc]
        intro hmem
        rcases List.mem_cons.mp hmem with h | h
        · exact hc h.symm
        · exact absurd h (ih rest hlen2 hb2)

/-- Every stage after entity decoding only deletes characters. -/
theorem clean_sublist (raw : List Char) :
    List.Sublist (clean_hebrew_verse raw) (unescape raw) := by
  have h1 := removeTags_sublist (unescape raw)
  have h2 := removeSub3_sub '{' 'פ' '}' (removeTags (unescape raw))
  have h3 := removeSub3_sub '{' 'ס' '}'
    (removeSub3 '{' 'פ' '}' (removeTags (unescape raw)))
  have h4 := stripList_sublist
    (removeSub3 '{' 'ס' '}' (removeSub3 '{' 'פ' '}' (removeTags (unescape raw))))
  exact h4.trans (h3.trans (h2.trans h1))

/-! ### Lemmas about the alphabet lookup and the resolver -/

theorem lookupIdx_spec (c : Char) :
    ∀ (l : List Char) (i : Nat), lookupIdx c l = some i → i < l.length ∧ l[i]? = some c := by
  intro l
  induction l with
  | nil => intro i h; simp [lookupIdx] at h
  | cons a rest ih =>
    intro i h
    by_cases hac : a = c
    · rw [lookupIdx, if_pos hac] at h
      obtain rfl : (0 : Nat) = i := Option.some.inj h
      subst hac
      exact ⟨Nat.succ_pos _, List.getElem?_cons_zero⟩
    · rw [lookupIdx, if_neg hac] at h
      rw [Option.map_eq_some'] at h
      obtain ⟨j, hj, rfl⟩ := h
      obtain ⟨hlt, hget⟩ := ih j hj
      exact ⟨Nat.succ_lt_succ hlt, by rw [List.getElem?_cons_succ]; exact hget⟩

theorem letter_to_index_spec (c : Char) (i : Nat) (h : letter_to_index c = some i) :
    i < 22 ∧ c ∈ ALEPH_BET := by
  obtain ⟨hlt, hget⟩ := lookupIdx_spec c ALEPH_BET i h
  have hlen : ALEPH_BET.length = 22 := rfl
  exact ⟨hlen ▸ hlt, List.getElem?_mem hget⟩

/-- Totality and shape of the character loop when at least 22 stanzas are
supplied: it never hits the out-of-range case, every produced pair pairs
an alphabet letter with the stanza at its index, and the result is empty
exactly when no character is a recognized letter. -/
theorem resolveChars_total (s : List Stanza) (hs : 22 ≤ s.length) :
    ∀ chars : List Char, ∃ l, resolveChars s chars = some l ∧
      (∀ p ∈ l, p.1 ∈ ALEPH_BET ∧
        ∃ i, i < 22 ∧ letter_to_index p.1 = some i ∧ s[i]? = some p.2) ∧
      (l = [] ↔ ∀ c ∈ chars, c = ' ' ∨ letter_to_index (final_to_regular c) = none) := by
  intro chars
  induction chars with
  | nil => exact ⟨[], rfl, by simp, by simp⟩
  | cons ch rest ih =>
    obtain ⟨l, hres, hmem, hiff⟩ := ih
    by_cases hsp : ch = ' '
    · refine ⟨l, ?_, hmem, ?_⟩
      · rw [resolveChars, if_pos hsp]; exact hres
      · rw [hiff, List.forall_mem_cons]
        simp [hsp]
    · cases hidx : letter_to_index (final_to_regular ch) with
      | none =>
        refine ⟨l, ?_, hmem, ?_⟩
        · rw [resolveChars, if_neg hsp, hidx]; exact hres
        · rw [hiff, List.forall_mem_cons]
          simp [hidx]
      | some idx =>
        obtain ⟨hlt, hmem22⟩ := letter_to_index_spec _ idx hidx
        have hidx_lt : idx < s.length := lt_of_lt_of_le hlt hs
        have hsome : s[idx]? = some s[idx] := List.getElem?_eq_getElem hidx_lt
        refine ⟨(final_to_regular ch, s[idx]) :: l, ?_, ?_, ?_⟩
        · simp only [resolveChars, if_neg hsp, hidx, hsome, hres, Option.map_some']
        · intro p hp
          rcases List.mem_cons.mp hp with hp | hp
          · subst hp
            exact ⟨hmem22, idx, hlt, hidx, hsome⟩
          · exact hmem p hp
        · constructor
          · intro h; exact absurd h (List.cons_ne_nil _ _)
          · intro h
            rcases h ch (List.mem_cons_self ch rest) with h | h
            · exact absurd h hsp
            · rw [h] at hidx; exact absurd hidx (by simp)

/-- C10: with at least 22 stanzas the resolver is total, and every
returned pair consists of a base-alphabet letter (never a final form)
together with the input stanza at that letter's index, which is below 22. -/
theorem resolver_invariants :
    ∀ (name : List Char) (s : List Stanza), 22 ≤ s.length →
      ∃ l, get_stanzas_for_name name s = some l ∧
        ∀ p ∈ l, p.1 ∈ ALEPH_BET ∧ p.1 ∉ (['ך', 'ם', 'ן', 'ף', 'ץ'] : List Char) ∧
          ∃ i, i < 22 ∧ letter_to_index p.1 = some i ∧ s[i]? = some p.2 := by
  intro name s hs
  obtain ⟨l, hres, hmem, _⟩ := resolveChars_total s hs (stripList name)
  refine ⟨l, hres, ?_⟩
  intro p hp
  obtain ⟨hab, hrest⟩ := hmem p hp
  have hfin : ∀ x ∈ ALEPH_BET, x ∉ (['ך', 'ם', 'ן', 'ף', 'ץ'] : List Char) := by decide
  exact ⟨hab, hfin p.1 hab, hrest⟩

/-- Witness for C10: a name with punctuation, a space and a repeated
letter, against 22 empty stanzas. -/
theorem resolver_invariants_witness :
    22 ≤ (List.replicate 22 ([] : Stanza)).length ∧
      ∃ l, get_stanzas_for_name "דוד! x".toList (List.replicate 22 ([] : Stanza)) = some l ∧
        ∀ p ∈ l, p.1 ∈ ALEPH_BET ∧ p.1 ∉ (['ך', 'ם', 'ן', 'ף', 'ץ'] : List Char) ∧
          ∃ i, i < 22 ∧ letter_to_index p.1 = some i ∧
            (List.replicate 22 ([] : Stanza))[i]? = some p.2 :=
  ⟨by decide, resolver_invariants _ _ (by decide)⟩

/-- C5: with at least 22 stanzas, the resolver result is empty exactly
when no character of the trimmed name maps to an alphabet letter, and in
that case (and only then) both document builders raise the
no-recognized-letters error instead of producing a document. -/
theorem builders_no_letters_error :
    ∀ (name : List Char) (s : List Stanza), 22 ≤ s.length →
      ∃ l, get_stanzas_for_name name s = some l ∧
        (l = [] ↔ ∀ c ∈ stripList name, c = ' ' ∨ letter_to_index (final_to_regular c) = none) ∧
        (l = [] → build_docx_bytes_for_name name s = Except.error BuildErr.noLetters ∧
          build_pdf_bytes_for_name name s = Except.error BuildErr.noLetters) ∧
        (l ≠ [] → build_docx_bytes_for_name name s = Except.ok l ∧
          build_pdf_bytes_for_name name s = Except.ok l) := by
  intro name s hs
  obtain ⟨l, hres, _, hiff⟩ := resolveChars_total s hs (stripList name)
  have hres' : get_stanzas_for_name name s = some l := hres
  refine ⟨l, hres', hiff, ?_, ?_⟩
  · intro he
    subst he
    rw [build_docx_bytes_for_name, build_pdf_bytes_for_name, hres']
    exact ⟨rfl, rfl⟩
  · intro hne
    rw [build_docx_bytes_for_name, build_pdf_bytes_for_name, hres']
    cases l with
    | nil => exact absurd rfl hne
    | cons a t => exact ⟨rfl, rfl⟩

/-- Witness for C5: the numeric-only name "123" against 22 empty stanzas. -/
theorem builders_no_letters_error_witness :
    22 ≤ (List.replicate 22 ([] : Stanza)).length ∧
      ∃ l, get_stanzas_for_name "123".toList (List.replicate 22 ([] : Stanza)) = some l ∧
        (l = [] ↔ ∀ c ∈ stripList "123".toList,
          c = ' ' ∨ letter_to_index (final_to_regular c) = none) ∧
        (l = [] →
          build_docx_bytes_for_name "123".toList (List.replicate 22 ([] : Stanza)) =
            Except.error BuildErr.noLetters ∧
          build_pdf_bytes_for_name "123".toList (List.replicate 22 ([] : Stanza)) =
            Except.error BuildErr.noLetters) ∧
        (l ≠ [] →
          build_docx_bytes_for_name "123".toList (List.replicate 22 ([] : Stanza)) =
            Except.ok l ∧
          build_pdf_bytes_for_name "123".toList (List.replicate 22 ([] : Stanza)) =
            Except.ok l) :=
  ⟨by decide, builders_no_letters_error _ _ (by decide)⟩

theorem resolveChars_cons_letter (s : List Stanza) (ch : Char) (rest : List Char)
    (idx : Nat) (st : Stanza) (hsp : ¬ch = ' ')
    (hidx : letter_to_index (final_to_regular ch) = some idx) (hst : s[idx]? = some st) :
    resolveChars s (ch :: rest) =
      (resolveChars s rest).map fun tail => (final_to_regular ch, st) :: tail := by
  simp only [resolveChars, if_neg hsp, hidx, hst]

/-! ### The batch loop -/

/-- C7: for the Name column [דוד, "", 123, משה] the batch loop writes
exactly two files, for דוד and משה: the blank entry is filtered out
before the loop, the numeric entry fails in the builder and is skipped,
and the loop continues past the failure. -/
theorem batch_two_outputs :
    ∀ s : List Stanza, 22 ≤ s.length →
      (batch_outputs
          [some "דוד".toList, some "".toList, some "123".toList, some "משה".toList]
          s).map Prod.fst =
        [docx_file_name "דוד".toList, docx_file_name "משה".toList] ∧
      (batch_outputs
          [some "דוד".toList, some "".toList, some "123".toList, some "משה".toList]
          s).length = 2 := by
  intro s hs
  obtain ⟨a3, h3⟩ : ∃ a, s[3]? = some a := ⟨_, List.getElem?_eq_getElem (by omega)⟩
  obtain ⟨a5, h5⟩ : ∃ a, s[5]? = some a := ⟨_, List.getElem?_eq_getElem (by omega)⟩
  obtain ⟨a4, h4⟩ : ∃ a, s[4]? = some a := ⟨_, List.getElem?_eq_getElem (by omega)⟩
  obtain ⟨a12, h12⟩ : ∃ a, s[12]? = some a := ⟨_, List.getElem?_eq_getElem (by omega)⟩
  obtain ⟨a20, h20⟩ : ∃ a, s[20]? = some a := ⟨_, List.getElem?_eq_getElem (by omega)⟩
  have hdavid : build_docx_bytes_for_name "דוד".toList s =
      Except.ok [('ד', a3), ('ו', a5), ('ד', a3)] := by
    have e1 : resolveChars s ['ד', 'ו', 'ד'] = some [('ד', a3), ('ו', a5), ('ד', a3)] := by
      rw [resolveChars_cons_letter s 'ד' _ 3 a3 (by decide) (by decide) h3,
        resolveChars_cons_letter s 'ו' _ 5 a5 (by decide) (by decide) h5,
        resolveChars_cons_letter s 'ד' _ 3 a3 (by decide) (by decide) h3]
      rfl
    have hstrip : stripList "דוד".toList = ['ד', 'ו', 'ד'] := by decide
    rw [build_docx_bytes_for_name, get_stanzas_for_name, hstrip, e1]
  have hmoshe : build_docx_bytes_for_name "משה".toList s =
      Except.ok [('מ', a12), ('ש', a20), ('ה', a4)] := by
    have e1 : resolveChars s ['מ', 'ש', 'ה'] = some [('מ', a12), ('ש', a20), ('ה', a4)] := by
      rw [resolveChars_cons_letter s 'מ' _ 12 a12 (by decide) (by decide) h12,
        resolveChars_cons_letter s 'ש' _ 20 a20 (by decide) (by decide) h20,
        resolveChars_cons_letter s 'ה' _ 4 a4 (by decide) (by decide) h4]
      rfl
    have hstrip : stripList "משה".toList = ['מ', 'ש', 'ה'] := by decide
    rw [build_docx_bytes_for_name, get_stanzas_for_name, hstrip, e1]
  have hnum : build_docx_bytes_for_name "123".toList s = Except.error BuildErr.noLetters := rfl
  have hnames : batch_names
      [some "דוד".toList, some "".toList, some "123".toList, some "משה".toList] =
      ["דוד".toList, "123".toList, "משה".toList] := by decide
  rw [batch_outputs, hnames]
  simp only [List.filterMap_cons, List.filterMap_nil, hdavid, hmoshe, hnum]
  exact ⟨rfl, rfl⟩

/-- Witness for C7 with 22 concrete empty stanzas. -/
theorem batch_two_outputs_witness :
    22 ≤ (List.replicate 22 ([] : Stanza)).length ∧
      ((batch_outputs
          [some "דוד".toList, some "".toList, some "123".toList, some "משה".toList]
          (List.replicate 22 ([] : Stanza))).map Prod.fst =
        [docx_file_name "דוד".toList, docx_file_name "משה".toList] ∧
      (batch_outputs
          [some "דוד".toList, some "".toList, some "123".toList, some "משה".toList]
          (List.replicate 22 ([] : Stanza))).length = 2) :=
  ⟨by decide, batch_two_outputs _ (by decide)⟩

/-- C8 fails on the code: for the spec's own batch example the success
message reports len(names) = 3 attempted names while only 2 files are
written into the archive. -/
theorem batch_count_counterexample :
    reported_count
        [some "דוד".toList, some "".toList, some "123".toList, some "משה".toList] = 3 ∧
      (batch_outputs
          [some "דוד".toList, some "".toList, some "123".toList, some "משה".toList]
          (List.replicate 22 ([] : Stanza))).length = 2 ∧
      (3 : Nat) ≠ 2 := by
  refine ⟨by decide, by decide, by decide⟩

/-- C8 amended: the reported aggregate count equals the number of names
attempted (non-blank after strip), which bounds from above — but need
not equal — the number of files actually written. -/
theorem batch_count_amended :
    ∀ (col : List (Option (List Char))) (s : List Stanza),
      reported_count col = (batch_names col).length ∧
      (batch_outputs col s).length ≤ reported_count col := by
  intro col s
  exact ⟨rfl, List.length_filterMap_le _ _⟩

/-! ### The loader's count validation -/

/-- C6: load_tehillim_119 returns the cleaned list exactly when it has
176 entries and fails otherwise; there is no partial-success mode. -/
theorem load_count_check :
    ∀ payload : List (List Char),
      load_tehillim_119 payload =
        if payload.length = 176 then Except.ok (payload.map clean_hebrew_verse)
        else Except.error LoadErr.wrongCount := by
  intro payload
  simp [load_tehillim_119]

/-! ### Resolution of the name David -/

/-- C1: resolving the name דוד against the 22 stanzas of a 176-verse
input yields exactly three entries, in name order: (ד, stanza 3),
(ו, stanza 5), (ד, stanza 3), the repeated ד contributing twice. -/
theorem david_resolution :
    ∀ vs : List Verse, vs.length = 176 →
      get_stanzas_for_name "דוד".toList (build_stanzas vs) =
        some [('ד', (vs.drop 24).take 8), ('ו', (vs.drop 40).take 8),
              ('ד', (vs.drop 24).take 8)] :=
  fun _ _ => rfl

/-- Witness for C1 at a concrete 176-verse input. -/
theorem david_resolution_witness :
    (List.replicate 176 (['א'] : Verse)).length = 176 ∧
      get_stanzas_for_name "דוד".toList (build_stanzas (List.replicate 176 (['א'] : Verse))) =
        some [('ד', ((List.replicate 176 (['א'] : Verse)).drop 24).take 8),
              ('ו', ((List.replicate 176 (['א'] : Verse)).drop 40).take 8),
              ('ד', ((List.replicate 176 (['א'] : Verse)).drop 24).take 8)] :=
  ⟨by rw [List.length_replicate], david_resolution _ (by rw [List.length_replicate])⟩

/-! ### Final letter forms -/

/-- C4: for each of the five final forms, the resolver on the
one-character name of the final form agrees with the resolver on the
corresponding base form, and the letter recorded in the output pair is
the normalized base form. -/
theorem final_forms_equiv :
    ∀ s : List Stanza,
      (get_stanzas_for_name ['ך'] s = get_stanzas_for_name ['כ'] s ∧
        get_stanzas_for_name ['ם'] s = get_stanzas_for_name ['מ'] s ∧
        get_stanzas_for_name ['ן'] s = get_stanzas_for_name ['נ'] s ∧
        get_stanzas_for_name ['ף'] s = get_stanzas_for_name ['פ'] s ∧
        get_stanzas_for_name ['ץ'] s = get_stanzas_for_name ['צ'] s) ∧
      (get_stanzas_for_name ['ך'] s = (s[10]?).map fun st => [('כ', st)]) ∧
      (get_stanzas_for_name ['ם'] s = (s[12]?).map fun st => [('מ', st)]) ∧
      (get_stanzas_for_name ['ן'] s = (s[13]?).map fun st => [('נ', st)]) ∧
      (get_stanzas_for_name ['ף'] s = (s[16]?).map fun st => [('פ', st)]) ∧
      (get_stanzas_for_name ['ץ'] s = (s[17]?).map fun st => [('צ', st)]) :=
  fun s =>
    ⟨⟨rfl, rfl, rfl, rfl, rfl⟩,
      by
        show (match s[10]? with
              | none => none
              | some st => some [('כ', st)] : Option (List (Char × Stanza))) = _
        cases s[10]? <;> rfl,
      by
        show (match s[12]? with
              | none => none
              | some st => some [('מ', st)] : Option (List (Char × Stanza))) = _
        cases s[12]? <;> rfl,
      by
        show (match s[13]? with
              | none => none
              | some st => some [('נ', st)] : Option (List (Char × Stanza))) = _
        cases s[13]? <;> rfl,
      by
        show (match s[16]? with
              | none => none
              | some st => some [('פ', st)] : Option (List (Char × Stanza))) = _
        cases s[16]? <;> rfl,
      by
        show (match s[17]? with
              | none => none
              | some st => some [('צ', st)] : Option (List (Char × Stanza))) = _
        cases s[17]? <;> rfl⟩

/-! ### The verse cleaner -/

/-- C3 fails on the code: entity decoding and marker removal are single
left-to-right passes, so the input "&amp;quot;" — which contains HTML
entities — cleans to "&quot;", which still contains an entity, and an
input whose marker fragments surround a complete pe marker cleans to a
literal pe marker. -/
theorem clean_verse_artifacts_counterexample :
    containsSub "&amp;".toList "&amp;quot;".toList = true ∧
    clean_hebrew_verse "&amp;quot;".toList = "&quot;".toList ∧
    containsSub "&quot;".toList (clean_hebrew_verse "&amp;quot;".toList) = true ∧
    containsSub ['{', 'פ', '}'] ['{', '{', 'פ', '}', 'פ', '}'] = true ∧
    clean_hebrew_verse ['{', '{', 'פ', '}', 'פ', '}'] = ['{', 'פ', '}'] ∧
    containsSub ['{', 'פ', '}'] (clean_hebrew_verse ['{', '{', 'פ', '}', 'פ', '}']) = true := by
  exact ⟨by decide, by decide, by decide, by decide, by decide, by decide⟩

/-- C3 amended: the cleaner applies its four steps in order and its
output never has leading or trailing whitespace and never contains a
substring matching the HTML-tag pattern; because entity decoding and
marker removal are single-pass, entity-freedom holds under the proviso
that the decoded text contains no ampersand, and marker-freedom holds
under the proviso that every opening brace of the tag-stripped text
begins a complete parsha marker. -/
theorem clean_verse_artifacts_amended :
    ∀ raw : List Char,
      clean_hebrew_verse raw =
        stripList (removeSub3 '{' 'ס' '}'
          (removeSub3 '{' 'פ' '}' (removeTags (unescape raw)))) ∧
      hasTagB (clean_hebrew_verse raw) = false ∧
      (∀ c, (clean_hebrew_verse raw).head? = some c → isPySpace c = false) ∧
      (∀ c, (clean_hebrew_verse raw).getLast? = some c → isPySpace c = false) ∧
      ('&' ∉ unescape raw →
        containsSub ['&', 'q', 'u', 'o', 't', ';'] (clean_hebrew_verse raw) = false ∧
        containsSub ['&', 'a', 'm', 'p', ';'] (clean_hebrew_verse raw) = false ∧
        containsSub ['&', 'l', 't', ';'] (clean_hebrew_verse raw) = false ∧
        containsSub ['&', 'g', 't', ';'] (clean_hebrew_verse raw) = false ∧
        containsSub ['&', '#', '3', '9', ';'] (clean_hebrew_verse raw) = false) ∧
      (bracesOk (removeTags (unescape raw)) = true →
        containsSub ['{', 'פ', '}'] (clean_hebrew_verse raw) = false ∧
        containsSub ['{', 'ס', '}'] (clean_hebrew_verse raw) = false) := by
  intro raw
  refine ⟨rfl, ?_, ?_, ?_, ?_, ?_⟩
  · exact stripList_tagFree (removeSub3_tagFree '{' 'ס' '}' (by decide) _ _ (Nat.le_refl _)
      (removeSub3_tagFree '{' 'פ' '}' (by decide) _ _ (Nat.le_refl _)
        (removeTags_no_tag (unescape raw))))
  · exact fun c h => stripList_head h
  · exact fun c h => stripList_getLast h
  · intro hamp
    have hclean : '&' ∉ clean_hebrew_verse raw :=
      fun hm => hamp (List.Sublist.mem hm (clean_sublist raw))
    exact ⟨containsSub_false_of_not_mem _ hclean, containsSub_false_of_not_mem _ hclean,
      containsSub_false_of_not_mem _ hclean, containsSub_false_of_not_mem _ hclean,
      containsSub_false_of_not_mem _ hclean⟩
  · intro hb
    have h1 : '{' ∉ removeSub3 '{' 'ס' '}'
        (removeSub3 '{' 'פ' '}' (removeTags (unescape raw))) :=
      bracesOk_no_brace _ _ (Nat.le_refl _) hb
    have h2 : '{' ∉ clean_hebrew_verse raw :=
      fun hm => h1 (List.Sublist.mem hm (stripList_sublist _))
    exact ⟨containsSub_false_of_not_mem _ h2, containsSub_false_of_not_mem _ h2⟩

/-- Witness for the amended C3 at a raw verse containing a tag, an
entity, a parsha marker and surrounding whitespace. -/
theorem clean_verse_artifacts_amended_witness :
    ('&' ∉ unescape (" <b>א</b>&quot;ב ".toList ++ ['{', 'פ', '}', ' '])) ∧
    bracesOk (removeTags (unescape
      (" <b>א</b>&quot;ב ".toList ++ ['{', 'פ', '}', ' ']))) = true ∧
    hasTagB (clean_hebrew_verse
      (" <b>א</b>&quot;ב ".toList ++ ['{', 'פ', '}', ' '])) = false ∧
    containsSub ['&', 'q', 'u', 'o', 't', ';']
      (clean_hebrew_verse (" <b>א</b>&quot;ב ".toList ++ ['{', 'פ', '}', ' '])) = false ∧
    containsSub ['{', 'פ', '}']
      (clean_hebrew_verse (" <b>א</b>&quot;ב ".toList ++ ['{', 'פ', '}', ' '])) = false := by
  refine ⟨by decide, by decide, (clean_verse_artifacts_amended _).2.1,
    ((clean_verse_artifacts_amended _).2.2.2.2.1 (by decide)).1,
    ((clean_verse_artifacts_amended _).2.2.2.2.2 (by decide)).1⟩

end Perek119
